import Mathlib

/-!
Shallow embedding of the csv-analysis regression core (Go package
`regression`, plus the transformation catalogue) and proofs about it.

Modelling conventions:
- `float64` is modelled as `ℝ` (exact real arithmetic; IEEE rounding,
  NaN and Inf are outside the model).
- `math.Pow(v, float64(k))` where `k` is a nonnegative integer loop
  counter is modelled as the monoid power `v ^ k` (Go agrees with the
  iterated product on such inputs, including `Pow(0, 0) = 1`).
- `math.Pow` with a real exponent is modelled as `Real.rpow`.
- `math.Log`, `math.Log10`, `math.Sqrt`, `math.E` are modelled as
  `Real.log`, `Real.logb 10`, `Real.sqrt`, `Real.exp 1`.
- A Go function returning `(T, error)` is modelled as `T × Option E`
  where `none` models a nil error.
- A Go slice read `y[i]` that can panic (index out of range) is
  modelled through `Option`: a function whose execution can panic
  returns `none` in exactly the panicking cases.
- The gonum call `solved.Solve(a, b)` is a dense linear solve.  Its
  mathematical content on a nonsingular `a` is `a⁻¹ * b`; we model it
  as the adjugate-based solve `(det a)⁻¹ • (adjugate a * b)`, which
  equals `a⁻¹ * b` and which, like gonum on a singular input, leaves a
  junk value (here the zero matrix) when `det a = 0`.  The error value
  returned by `Solve` is DISCARDED by the source (`solved.Solve(a, b)`
  on its own line), and the model reproduces that: no error is
  reported for singular systems.
-/

namespace CsvAnalysis

noncomputable section

/-- The error returned by `PolynomialRegression` when `n < m+1`;
the Go source builds it with `fmt.Errorf("Not enough points")`. -/
inductive RegressionError where
  | insufficientData
  deriving DecidableEq

/-- Go interface `LinearTransformation` together with the `FY` method of
the `Interpolation` interface, which every model in `stat.go` implements
alongside it.  Display metadata (equation text, axis labels) is omitted:
it is not used by the math. -/
structure LinearTransformation where
  FX : ℝ → ℝ → ℝ → ℝ
  FTransformX : ℝ → ℝ
  FTransformY : ℝ → ℝ
  FRestoreA : ℝ → ℝ
  FRestoreB : ℝ → ℝ
  FY : ℝ → ℝ → ℝ → ℝ

/-! ## Transform catalogue (stat.go) -/

/-- Go type `None` (no transformation). -/
def NoneT : LinearTransformation where
  FX := fun a b x => a + b * x
  FTransformX := fun x => x
  FTransformY := fun y => y
  FRestoreA := fun at_ => at_
  FRestoreB := fun bt => bt
  FY := fun a b y => (y - a) / b

/-- Go type `Power`: y = ax^b linearized as log y = log a + b log x.
Note on `FY`: the Go body is `return a * math.Pow(x, b)` where `x` is
the zero-initialized named return value, so the parameter `y` is unused
and the function returns `a * 0 ^ b`, contradicting the doc comment
`x = sqrt(y/a,b)` above it in the source. -/
def Power : LinearTransformation where
  FX := fun a b x => a * x ^ b
  FTransformX := fun x => Real.logb 10 x
  FTransformY := fun y => Real.logb 10 y
  FRestoreA := fun at_ => (10 : ℝ) ^ at_
  FRestoreB := fun bt => bt
  FY := fun a b _y => a * (0 : ℝ) ^ b

/-- Go type `Exponential`: y = a·B^x linearized as ln y = ln a + x ln B. -/
def Exponential : LinearTransformation where
  FX := fun a b x => a * b ^ x
  FTransformX := fun x => x
  FTransformY := fun y => Real.log y
  FRestoreA := fun at_ => (Real.exp 1) ^ at_
  FRestoreB := fun bt => (Real.exp 1) ^ bt
  FY := fun a b y => Real.log (y / a) / Real.log b

/-- Go type `LnPower`: y = ln(ax^b) linearized as y = ln a + b ln x. -/
def LnPower : LinearTransformation where
  FX := fun a b x => Real.log a + b * Real.log x
  FTransformX := fun x => Real.log x
  FTransformY := fun y => y
  FRestoreA := fun at_ => (Real.exp 1) ^ at_
  FRestoreB := fun bt => bt
  FY := fun a b y => ((y - b) / Real.log a) ^ (Real.exp 1)

/-- Go type `OneOverX`: y = 1/(a+bx) linearized as 1/y = a + bx. -/
def OneOverX : LinearTransformation where
  FX := fun a b x => 1 / (a + b * x)
  FTransformX := fun x => x
  FTransformY := fun y => 1 / y
  FRestoreA := fun at_ => at_
  FRestoreB := fun bt => bt
  FY := fun a b y => (1 / y - a) / b

/-- Go type `BOverX`: y = a + b/(1+x) linearized with Xt = 1/(1+x). -/
def BOverX : LinearTransformation where
  FX := fun a b x => a + b / (1 + x)
  FTransformX := fun x => 1 / (1 + x)
  FTransformY := fun y => y
  FRestoreA := fun at_ => at_
  FRestoreB := fun bt => bt
  FY := fun a b y => 1 / ((y - a) / b) - 1

/-- Go type `OneOverX2`: y = 1/(a+bx)^2 linearized as 1/sqrt y = a + bx. -/
def OneOverX2 : LinearTransformation where
  FX := fun a b x => 1 / (a + b * x) ^ 2
  FTransformX := fun x => x
  FTransformY := fun y => 1 / Real.sqrt y
  FRestoreA := fun at_ => at_
  FRestoreB := fun bt => bt
  FY := fun a b y => (1 / Real.sqrt y - a) / b

/-- Go type `Sqrt`: y = a + b sqrt x. -/
def SqrtT : LinearTransformation where
  FX := fun a b x => a + b * Real.sqrt x
  FTransformX := fun x => Real.sqrt x
  FTransformY := fun y => y
  FRestoreA := fun at_ => at_
  FRestoreB := fun bt => bt
  FY := fun a b y => ((y - a) / b) ^ 2

/-! ## Polynomial solver (regression package) -/

/-- The inner accumulation loop of `PolynomialRegression` for a matrix
entry: `for l := 0; l < n; l++ { sum += math.Pow(x[l], float64(k)) }`. -/
def powSum (x : List ℝ) (k : ℕ) : ℝ :=
  (x.map (fun xl => xl ^ k)).sum

/-- The (m+1)×(m+1) moment matrix `a` built by `PolynomialRegression`.
The Go double loop computes `powSum x (i+j)` once per pair `j ≤ i` and
writes it at both `(i, j)` and `(j, i)`; its final state therefore has
`powSum x (i+j)` at every position, which is what we define. -/
def polyA (m : ℕ) (x : List ℝ) : Matrix (Fin (m + 1)) (Fin (m + 1)) ℝ :=
  Matrix.of fun i j => powSum x ((i : ℕ) + (j : ℕ))

/-- The (m+1)×1 vector `b` built by `PolynomialRegression`:
entry `i` is `sum += y[l] * math.Pow(x[l], float64(i))` over `l < n`
with `n = len(x)`.  The read `y[l]` is modelled with `getD`; every
caller in the package passes `x` and `y` of equal length. -/
def polyB (m : ℕ) (x y : List ℝ) : Matrix (Fin (m + 1)) (Fin 1) ℝ :=
  Matrix.of fun i _ =>
    ((List.range x.length).map (fun l => y.getD l 0 * x.getD l 0 ^ (i : ℕ))).sum

/-- Model of the gonum dense solve `solved.Solve(a, b)`: the exact
solution `a⁻¹ * b` expressed through the adjugate, with the zero matrix
as the junk result on singular input (see the header comment). -/
def matSolve {k : ℕ} (a : Matrix (Fin k) (Fin k) ℝ)
    (b : Matrix (Fin k) (Fin 1) ℝ) : Matrix (Fin k) (Fin 1) ℝ :=
  (a.det)⁻¹ • (a.adjugate * b)

/-- Go `PolynomialRegression(m, x, y)`.  Returns the `(m+1)×1` solution
matrix and the error value.  When `n < m+1` it returns the untouched
zero matrix `solved` together with the "Not enough points" error,
before building or solving the system.  Otherwise it solves the normal
equations; the error value returned by the gonum `Solve` call is
discarded in the source, so the error component is `none` even when
the moment matrix is singular. -/
def PolynomialRegression (m : ℕ) (x y : List ℝ) :
    Matrix (Fin (m + 1)) (Fin 1) ℝ × Option RegressionError :=
  if x.length < m + 1 then
    (0, some RegressionError.insufficientData)
  else
    (matSolve (polyA m x) (polyB m x y), none)

/-- Go `generateZmatrix(x, m)`: the n×(m+1) Vandermonde design matrix
with `z.Set(i, j, math.Pow(x[i], float64(j)))`. -/
def generateZmatrix (x : List ℝ) (m : ℕ) :
    Matrix (Fin x.length) (Fin (m + 1)) ℝ :=
  Matrix.of fun i j => x.get i ^ (j : ℕ)

/-- The gonum `mat.NewVecDense(len(y), y)` viewed as a column over the
row index of `Z`; gonum panics on a dimension mismatch and every caller
passes equal-length slices, so `getD` only pads the unreachable case. -/
def yVec (x y : List ℝ) : Matrix (Fin x.length) (Fin 1) ℝ :=
  Matrix.of fun i _ => y.getD i 0

/-- Model of the gonum `Inverse` call: `(det a)⁻¹ • adjugate a`, equal
to `a⁻¹` on nonsingular input; as with `Solve`, the error value that
`Inverse` returns is discarded by the source. -/
def matInverse {k : ℕ} (a : Matrix (Fin k) (Fin k) ℝ) :
    Matrix (Fin k) (Fin k) ℝ :=
  (a.det)⁻¹ • a.adjugate

/-- Go `polynomialRegressionInverseMatrix(m, x, y)`: computes
`(Zᵀ Z)⁻¹ (Zᵀ y)` and always returns a nil error. -/
def polynomialRegressionInverseMatrix (m : ℕ) (x y : List ℝ) :
    Matrix (Fin (m + 1)) (Fin 1) ℝ × Option RegressionError :=
  let z := generateZmatrix x m
  let zAndzTranspose := z.transpose * z
  let yAndzTranspose := z.transpose * yVec x y
  let zAndzTransposeInverse := matInverse zAndzTranspose
  (zAndzTransposeInverse * yAndzTranspose, none)

/-! ## R² evaluator -/

/-- Go `sliceMean(x)`: accumulate and divide by `float64(n)`. -/
def sliceMean (x : List ℝ) : ℝ :=
  x.sum / (x.length : ℝ)

/-- Go `r2Calc(x, y, fx)`: the loop `for i, xi := range x` accumulates
`ssReg += Pow(fx(xi)-mean, 2)` and `ssTotal += Pow(y[i]-mean, 2)` over
the indices of `x`; the read `y[i]` is modelled with `getD` (all
callers pass equal-length slices). -/
def r2Calc (x y : List ℝ) (fx : ℝ → ℝ) : ℝ :=
  let mean := sliceMean y
  let ssReg := ((List.range x.length).map
    (fun i => (fx (x.getD i 0) - mean) ^ 2)).sum
  let ssTotal := ((List.range x.length).map
    (fun i => (y.getD i 0 - mean) ^ 2)).sum
  ssReg / ssTotal

/-- The R² formula exactly as the specification states it:
R² = Σᵢ(f(xᵢ) − ȳ)² / Σᵢ(yᵢ − ȳ)² with ȳ the arithmetic mean of y.
Written from the words of the specification, to be compared with
`r2Calc` translated from the source. -/
def r2SpecFormula (x y : List ℝ) (f : ℝ → ℝ) : ℝ :=
  let ybar := y.sum / (y.length : ℝ)
  ((x.map (fun xi => (f xi - ybar) ^ 2)).sum) /
    ((y.map (fun yi => (yi - ybar) ^ 2)).sum)

/-! ## Solution assembler -/

/-- Go struct `Solution`. -/
structure Solution where
  X : List ℝ
  Y : List ℝ
  Xt : List ℝ
  Yt : List ℝ
  At : ℝ
  Bt : ℝ
  A : ℝ
  B : ℝ
  LT : LinearTransformation
  R2t : ℝ
  R2 : ℝ

/-- Go method `Solution.LinearFunction`: x ↦ At + Bt·x. -/
def Solution.LinearFunction (s : Solution) : ℝ → ℝ :=
  fun x => s.At + s.Bt * x

/-- Go method `Solution.RegressionFunction`: x ↦ LT.FX(A, B, x). -/
def Solution.RegressionFunction (s : Solution) : ℝ → ℝ :=
  fun x => s.LT.FX s.A s.B x

/-- The copy loop `for i := range xo { ... yo[i] ... }` shared by
`SolveTransformation` and `SolvePolynomial`: it reads `yo[i]` for every
index `i` of `xo` and panics (modelled as `none`) when
`len(yo) < len(xo)`; on success it yields the copied Y slice. -/
def copyY (xo yo : List ℝ) : Option (List ℝ) :=
  (List.range xo.length).mapM (fun i => yo.get? i)

/-- Go `SolveTransformation(xo, yo, lt)`.  The outer `Option` models
the copy-loop panic; the inner `Option RegressionError` is the Go error
return.  On the error path the remaining fields keep their Go zero
values. -/
def SolveTransformation (xo yo : List ℝ) (lt : LinearTransformation) :
    Option (Solution × Option RegressionError) :=
  match copyY xo yo with
  | none => none
  | some yCopy =>
    let base : Solution :=
      { X := xo
        Y := yCopy
        Xt := xo.map lt.FTransformX
        Yt := yCopy.map lt.FTransformY
        At := 0
        Bt := 0
        A := 0
        B := 0
        LT := lt
        R2t := 0
        R2 := 0 }
    match PolynomialRegression 1 base.Xt base.Yt with
    | (_, some e) => some (base, some e)
    | (s, none) =>
      let withCoeffs : Solution :=
        { base with
          At := s 0 0
          Bt := s 1 0
          A := lt.FRestoreA (s 0 0)
          B := lt.FRestoreB (s 1 0) }
      let final : Solution :=
        { withCoeffs with
          R2t := r2Calc withCoeffs.Xt withCoeffs.Yt withCoeffs.LinearFunction
          R2 := r2Calc withCoeffs.X withCoeffs.Y withCoeffs.RegressionFunction }
      some (final, none)

/-- Go struct `PolynomialSolution`; the `Degree` field is carried as a
type index so that the coefficient matrix has a fixed shape. -/
structure PolynomialSolution (m : ℕ) where
  X : List ℝ
  Y : List ℝ
  A : Matrix (Fin (m + 1)) (Fin 1) ℝ
  R2 : ℝ

/-- Go method `PolynomialSolution.PolynomialFunction`:
x ↦ Σᵢ A(i,0)·x^i over the rows of the solution matrix. -/
def PolynomialSolution.PolynomialFunction {m : ℕ}
    (s : PolynomialSolution m) : ℝ → ℝ :=
  fun x => ∑ i : Fin (m + 1), s.A i 0 * x ^ (i : ℕ)

/-- Go `SolvePolynomial(xo, yo, degree)`; same copy-loop panic model
and error propagation as `SolveTransformation`. -/
def SolvePolynomial (xo yo : List ℝ) (m : ℕ) :
    Option (PolynomialSolution m × Option RegressionError) :=
  match copyY xo yo with
  | none => none
  | some yCopy =>
    match PolynomialRegression m xo yCopy with
    | (_, some e) => some ({ X := xo, Y := yCopy, A := 0, R2 := 0 }, some e)
    | (s, none) =>
      let base : PolynomialSolution m := { X := xo, Y := yCopy, A := s, R2 := 0 }
      some ({ base with R2 := r2Calc xo yCopy base.PolynomialFunction }, none)

/-! ## Helper lemmas -/

/-- A mapped list sum as a sum over index positions. -/
theorem list_map_sum_eq_range (l : List ℝ) (f : ℝ → ℝ) :
    (l.map f).sum = ∑ i in Finset.range l.length, f (l.getD i 0) := by
  induction l with
  | nil => simp
  | cons a t ih =>
    simp only [List.map_cons, List.sum_cons, List.length_cons]
    rw [Finset.sum_range_succ' (fun i => f ((a :: t).getD i 0)) t.length]
    simp [ih, add_comm]

/-- A sum of a function mapped over `List.range` as a `Finset.range` sum. -/
theorem range_map_sum (n : ℕ) (f : ℕ → ℝ) :
    ((List.range n).map f).sum = ∑ i in Finset.range n, f i := by
  induction n with
  | zero => simp
  | succ k ih =>
    rw [List.range_succ, List.map_append, List.sum_append, Finset.sum_range_succ]
    simp [ih]

theorem powSum_eq_range (x : List ℝ) (k : ℕ) :
    powSum x k = ∑ i in Finset.range x.length, x.getD i 0 ^ k :=
  list_map_sum_eq_range x (fun v => v ^ k)

theorem polyB_apply (m : ℕ) (x y : List ℝ) (i : Fin (m + 1)) (j : Fin 1) :
    polyB m x y i j
      = ∑ l in Finset.range x.length, y.getD l 0 * x.getD l 0 ^ (i : ℕ) := by
  unfold polyB
  exact range_map_sum x.length _

/-- `a * matSolve a b = b` when the determinant does not vanish. -/
theorem mul_matSolve {k : ℕ} (a : Matrix (Fin k) (Fin k) ℝ)
    (b : Matrix (Fin k) (Fin 1) ℝ) (hdet : a.det ≠ 0) :
    a * matSolve a b = b := by
  unfold matSolve
  rw [Matrix.mul_smul, ← Matrix.mul_assoc, Matrix.mul_adjugate,
    Matrix.smul_mul, Matrix.one_mul, smul_smul, inv_mul_cancel₀ hdet, one_smul]

/-- `matSolve` returns the unique solution of a nonsingular system. -/
theorem matSolve_unique {k : ℕ} (a : Matrix (Fin k) (Fin k) ℝ)
    (b v : Matrix (Fin k) (Fin 1) ℝ) (hdet : a.det ≠ 0) (hv : a * v = b) :
    matSolve a b = v := by
  unfold matSolve
  rw [← hv, ← Matrix.mul_assoc, Matrix.adjugate_mul,
    Matrix.smul_mul, Matrix.one_mul, smul_smul, inv_mul_cancel₀ hdet, one_smul]

theorem mapM_getQ_range (yo : List ℝ) (n : ℕ) (h : n ≤ yo.length) :
    (List.range n).mapM (fun i => yo.get? i) = some (yo.take n) := by
  induction n with
  | zero => rfl
  | succ k ih =>
    have hklt : k < yo.length := h
    rw [List.range_succ, List.mapM_append, ih (Nat.le_of_succ_le h)]
    simp only [List.mapM_cons, List.mapM_nil, List.get?_eq_getElem?,
      List.getElem?_eq_getElem hklt, Option.pure_def, Option.bind_eq_bind,
      Option.some_bind, List.take_concat_get']

/-- When `len yo ≥ len xo` the copy loop succeeds and keeps exactly the
first `len xo` entries of `yo`. -/
theorem copyY_eq_take (xo yo : List ℝ) (h : xo.length ≤ yo.length) :
    copyY xo yo = some (yo.take xo.length) :=
  mapM_getQ_range yo xo.length h

theorem getD_eq_get (x : List ℝ) (i : Fin x.length) :
    x.getD (i : ℕ) 0 = x.get i := by
  rw [List.getD_eq_getElem x 0 i.isLt]
  rfl

/-- The moment matrix of the normal-equations path is exactly `Zᵀ Z`
over the Vandermonde design matrix `Z`. -/
theorem polyA_eq_zTz (m : ℕ) (x : List ℝ) :
    polyA m x = (generateZmatrix x m).transpose * generateZmatrix x m := by
  ext i j
  rw [Matrix.mul_apply]
  show powSum x ((i : ℕ) + (j : ℕ)) = _
  rw [powSum_eq_range, ← Fin.sum_univ_eq_sum_range
    (fun l => x.getD l 0 ^ ((i : ℕ) + (j : ℕ))) x.length]
  refine Finset.sum_congr rfl fun l _ => ?_
  rw [getD_eq_get]
  show x.get l ^ ((i : ℕ) + (j : ℕ)) = x.get l ^ (i : ℕ) * x.get l ^ (j : ℕ)
  rw [pow_add]

/-- The right-hand vector of the normal-equations path is exactly
`Zᵀ y`. -/
theorem polyB_eq_zTy (m : ℕ) (x y : List ℝ) :
    polyB m x y = (generateZmatrix x m).transpose * yVec x y := by
  ext i j
  rw [Matrix.mul_apply, polyB_apply, ← Fin.sum_univ_eq_sum_range
    (fun l => y.getD l 0 * x.getD l 0 ^ (i : ℕ)) x.length]
  refine Finset.sum_congr rfl fun l _ => ?_
  rw [getD_eq_get]
  show y.getD (l : ℕ) 0 * x.get l ^ (i : ℕ)
    = x.get l ^ (i : ℕ) * yVec x y l j
  rw [mul_comm]
  rfl

/-- An invertible moment matrix forces at least `m+1` data points:
`polyA = Zᵀ Z` has the rank of `Z`, bounded by the number of rows. -/
theorem length_ge_of_polyA_isUnit (m : ℕ) (x : List ℝ)
    (h : IsUnit (polyA m x).det) : m + 1 ≤ x.length := by
  have hz := polyA_eq_zTz m x
  have hrank : (polyA m x).rank = m + 1 := by
    rw [Matrix.rank_of_isUnit (polyA m x)
      (by rwa [Matrix.isUnit_iff_isUnit_det])]
    simp
  have hrank2 : (polyA m x).rank = (generateZmatrix x m).rank := by
    rw [hz]
    exact Matrix.rank_transpose_mul_self (generateZmatrix x m)
  have hle : (generateZmatrix x m).rank ≤ x.length := by
    have := Matrix.rank_le_card_height (generateZmatrix x m)
    simpa using this
  omega

theorem powSum_zero (x : List ℝ) : powSum x 0 = (x.length : ℝ) := by
  simp [powSum, pow_zero]

/-- Expansion of the symmetric double sum of squared differences. -/
theorem double_sum_sq (n : ℕ) (f : ℕ → ℝ) :
    ∑ p in Finset.range n, ∑ q in Finset.range n, (f p - f q) ^ 2
      = 2 * ((n : ℝ) * (∑ i in Finset.range n, f i ^ 2)
          - (∑ i in Finset.range n, f i) ^ 2) := by
  have expand : ∀ p q : ℕ, (f p - f q) ^ 2
      = f p ^ 2 - 2 * (f p * f q) + f q ^ 2 := fun p q => by ring
  simp only [expand, Finset.sum_add_distrib, Finset.sum_sub_distrib,
    Finset.sum_const, Finset.card_range, nsmul_eq_mul, ← Finset.mul_sum,
    ← Finset.sum_mul]
  ring

/-- Two distinct x values make the degree-1 moment matrix nonsingular;
its determinant is strictly positive. -/
theorem polyA_one_det_pos (x : List ℝ) (p q : ℕ) (hp : p < x.length)
    (hq : q < x.length) (hne : x.getD p 0 ≠ x.getD q 0) :
    0 < (polyA 1 x).det := by
  have hdet : (polyA 1 x).det
      = (x.length : ℝ) * powSum x 2 - powSum x 1 * powSum x 1 := by
    rw [Matrix.det_fin_two]
    show powSum x 0 * powSum x 2 - powSum x 1 * powSum x 1 = _
    rw [powSum_zero]
  have hsq : powSum x 1 * powSum x 1 = powSum x 1 ^ 2 := by ring
  rw [hdet, hsq]
  have hpos : 0 < ∑ a in Finset.range x.length, ∑ b in Finset.range x.length,
      (x.getD a 0 - x.getD b 0) ^ 2 := by
    refine Finset.sum_pos' (fun a _ => Finset.sum_nonneg fun b _ => sq_nonneg _) ?_
    refine ⟨p, Finset.mem_range.mpr hp, ?_⟩
    refine Finset.sum_pos' (fun b _ => sq_nonneg _) ?_
    exact ⟨q, Finset.mem_range.mpr hq, pow_two_pos_of_ne_zero (sub_ne_zero.mpr hne)⟩
  have hid := double_sum_sq x.length (fun i => x.getD i 0)
  have h1 : powSum x 1 = ∑ i in Finset.range x.length, x.getD i 0 := by
    rw [powSum_eq_range]
    exact Finset.sum_congr rfl fun i _ => by rw [pow_one]
  have h2 : powSum x 2 = ∑ i in Finset.range x.length, x.getD i 0 ^ 2 :=
    powSum_eq_range x 2
  rw [h1, h2]
  nlinarith [hpos, hid]

/-- On exactly linear data the degree-1 normal equations are solved by
the column `(c, d)`. -/
theorem polyA_one_mul_line (x y : List ℝ) (c d : ℝ)
    (hline : ∀ l < x.length, y.getD l 0 = c + d * x.getD l 0) :
    polyA 1 x * !![c; d] = polyB 1 x y := by
  ext i j
  have hj : j = 0 := Subsingleton.elim j 0
  subst hj
  rw [Matrix.mul_apply, polyB_apply, Fin.sum_univ_two]
  have hcongr : ∑ l in Finset.range x.length, y.getD l 0 * x.getD l 0 ^ (i : ℕ)
      = ∑ l in Finset.range x.length,
          (c * x.getD l 0 ^ (i : ℕ) + d * (x.getD l 0 * x.getD l 0 ^ (i : ℕ))) := by
    refine Finset.sum_congr rfl fun l hl => ?_
    rw [hline l (Finset.mem_range.mp hl)]
    ring
  rw [hcongr, Finset.sum_add_distrib, ← Finset.mul_sum, ← Finset.mul_sum]
  have hpA0 : polyA 1 x i 0 = powSum x ((i : ℕ) + 0) := rfl
  have hpA1 : polyA 1 x i 1 = powSum x ((i : ℕ) + 1) := rfl
  have hm0 : (!![c; d] : Matrix (Fin 2) (Fin 1) ℝ) 0 0 = c := rfl
  have hm1 : (!![c; d] : Matrix (Fin 2) (Fin 1) ℝ) 1 0 = d := rfl
  rw [hpA0, hpA1, hm0, hm1, powSum_eq_range, powSum_eq_range]
  have hx1 : ∑ l in Finset.range x.length, x.getD l 0 ^ ((i : ℕ) + 1)
      = ∑ l in Finset.range x.length, x.getD l 0 * x.getD l 0 ^ (i : ℕ) := by
    refine Finset.sum_congr rfl fun l _ => ?_
    ring
  rw [Nat.add_zero, hx1]
  ring

/-! ## Claim theorems -/

/-- C1: the claim fails on the code.  At degree 1 with the degenerate
input x = [1, 1] (duplicate x values, n = 2 ≥ m+1 = 2) the moment
matrix is singular, yet `PolynomialRegression` reports no error: the
source discards the error value of the gonum `Solve` call and returns
a nil error, so the singularity is never surfaced. -/
theorem c1_singularity_not_surfaced :
    (polyA 1 [1, 1]).det = 0
      ∧ (PolynomialRegression 1 [1, 1] [1, 2]).2 = none := by
  constructor
  · rw [Matrix.det_fin_two]
    show powSum [1, 1] (0 + 0) * powSum [1, 1] (1 + 1)
        - powSum [1, 1] (0 + 1) * powSum [1, 1] (1 + 0) = 0
    norm_num [powSum]
  · have hlen : ¬(([1, 1] : List ℝ).length < 1 + 1) := by norm_num
    rw [PolynomialRegression, if_neg hlen]

/-- C2: for equal-length inputs, `r2Calc` computes exactly the
specification formula Σᵢ(f(xᵢ) − ȳ)² / Σᵢ(yᵢ − ȳ)² with ȳ the
arithmetic mean of y, as a total function of its arguments. -/
theorem c2_r2_formula (x y : List ℝ) (f : ℝ → ℝ)
    (hlen : x.length = y.length) :
    r2Calc x y f = r2SpecFormula x y f := by
  simp only [r2Calc, r2SpecFormula, sliceMean, range_map_sum,
    list_map_sum_eq_range, hlen]

theorem c2_r2_formula_witness :
    r2Calc [0, 1] [0, 1] (fun t => t)
      = r2SpecFormula [0, 1] [0, 1] (fun t => t) :=
  c2_r2_formula [0, 1] [0, 1] (fun t => t) rfl

/-- C5: every model of the catalogue computes its transformX,
transformY, restoreA, restoreB and FX functions exactly as the table
in the specification states, for all real inputs. -/
theorem c5_catalogue_matches_table :
    ((∀ x, NoneT.FTransformX x = x) ∧ (∀ y, NoneT.FTransformY y = y)
      ∧ (∀ t, NoneT.FRestoreA t = t) ∧ (∀ t, NoneT.FRestoreB t = t)
      ∧ (∀ a b x, NoneT.FX a b x = a + b * x))
  ∧ ((∀ x, Power.FTransformX x = Real.logb 10 x)
      ∧ (∀ y, Power.FTransformY y = Real.logb 10 y)
      ∧ (∀ t, Power.FRestoreA t = (10 : ℝ) ^ t)
      ∧ (∀ t, Power.FRestoreB t = t)
      ∧ (∀ a b x, Power.FX a b x = a * x ^ b))
  ∧ ((∀ x, Exponential.FTransformX x = x)
      ∧ (∀ y, Exponential.FTransformY y = Real.log y)
      ∧ (∀ t, Exponential.FRestoreA t = Real.exp t)
      ∧ (∀ t, Exponential.FRestoreB t = Real.exp t)
      ∧ (∀ a b x, Exponential.FX a b x = a * b ^ x))
  ∧ ((∀ x, LnPower.FTransformX x = Real.log x)
      ∧ (∀ y, LnPower.FTransformY y = y)
      ∧ (∀ t, LnPower.FRestoreA t = Real.exp t)
      ∧ (∀ t, LnPower.FRestoreB t = t)
      ∧ (∀ a b x, LnPower.FX a b x = Real.log a + b * Real.log x))
  ∧ ((∀ x, OneOverX.FTransformX x = x)
      ∧ (∀ y, OneOverX.FTransformY y = 1 / y)
      ∧ (∀ t, OneOverX.FRestoreA t = t) ∧ (∀ t, OneOverX.FRestoreB t = t)
      ∧ (∀ a b x, OneOverX.FX a b x = 1 / (a + b * x)))
  ∧ ((∀ x, BOverX.FTransformX x = 1 / (1 + x))
      ∧ (∀ y, BOverX.FTransformY y = y)
      ∧ (∀ t, BOverX.FRestoreA t = t) ∧ (∀ t, BOverX.FRestoreB t = t)
      ∧ (∀ a b x, BOverX.FX a b x = a + b / (1 + x)))
  ∧ ((∀ x, OneOverX2.FTransformX x = x)
      ∧ (∀ y, OneOverX2.FTransformY y = 1 / Real.sqrt y)
      ∧ (∀ t, OneOverX2.FRestoreA t = t) ∧ (∀ t, OneOverX2.FRestoreB t = t)
      ∧ (∀ a b x, OneOverX2.FX a b x = 1 / (a + b * x) ^ 2))
  ∧ ((∀ x, SqrtT.FTransformX x = Real.sqrt x)
      ∧ (∀ y, SqrtT.FTransformY y = y)
      ∧ (∀ t, SqrtT.FRestoreA t = t) ∧ (∀ t, SqrtT.FRestoreB t = t)
      ∧ (∀ a b x, SqrtT.FX a b x = a + b * Real.sqrt x)) := by
  repeat' apply And.intro
  all_goals first
    | (intros; rfl)
    | (intro t; exact Real.exp_one_rpow t)

/-- C8: the claim fails on the code.  For the Power model at a = 1,
b = 1, x = 2 (inside the stated domain x > 0, y > 0), FX gives y = 2
but FY applied to that y returns a·0^b = 0 ≠ 2: the Go body of
`Power.FY` reads the zero-initialized named return value instead of
the argument, contradicting its own doc comment. -/
theorem c8_power_fy_not_inverse :
    Power.FX 1 1 2 = 2
      ∧ Power.FY 1 1 (Power.FX 1 1 2) = 0
      ∧ Power.FY 1 1 (Power.FX 1 1 2) ≠ 2 := by
  have hfx : Power.FX 1 1 2 = 2 := by
    show (1 : ℝ) * (2 : ℝ) ^ (1 : ℝ) = 2
    rw [Real.rpow_one, one_mul]
  have hfy : Power.FY 1 1 (Power.FX 1 1 2) = 0 := by
    show (1 : ℝ) * (0 : ℝ) ^ (1 : ℝ) = 0
    rw [Real.rpow_one, one_mul]
  exact ⟨hfx, hfy, by rw [hfy]; norm_num⟩

/-- C7: with n < m+1 points the polynomial solver returns the
insufficient-data error together with the untouched zero solution
matrix (it returns before any solve), and no such error when
n ≥ m+1; the error propagates unchanged through `SolveTransformation`
and `SolvePolynomial`, which neither retry nor substitute
coefficients. -/
theorem c7_insufficient_data :
    (∀ (m : ℕ) (x y : List ℝ), x.length < m + 1 →
        PolynomialRegression m x y = (0, some RegressionError.insufficientData))
  ∧ (∀ (m : ℕ) (x y : List ℝ), m + 1 ≤ x.length →
        (PolynomialRegression m x y).2 = none)
  ∧ (∀ (xo yo : List ℝ) (lt : LinearTransformation),
        xo.length ≤ yo.length → xo.length < 2 →
        ∃ s, SolveTransformation xo yo lt
          = some (s, some RegressionError.insufficientData))
  ∧ (∀ (xo yo : List ℝ) (m : ℕ),
        xo.length ≤ yo.length → xo.length < m + 1 →
        ∃ s, SolvePolynomial xo yo m
          = some (s, some RegressionError.insufficientData)) := by
  have hfail : ∀ (m : ℕ) (x y : List ℝ), x.length < m + 1 →
      PolynomialRegression m x y = (0, some RegressionError.insufficientData) :=
    fun m x y h => by rw [PolynomialRegression, if_pos h]
  refine ⟨hfail, ?_, ?_, ?_⟩
  · intro m x y h
    rw [PolynomialRegression, if_neg (by omega)]
  · intro xo yo lt hle h2
    rw [SolveTransformation, copyY_eq_take xo yo hle]
    have hxt : (xo.map lt.FTransformX).length < 1 + 1 := by
      rw [List.length_map]; omega
    dsimp only
    rw [hfail 1 _ ((yo.take xo.length).map lt.FTransformY) hxt]
    exact ⟨_, rfl⟩
  · intro xo yo m hle hm
    rw [SolvePolynomial, copyY_eq_take xo yo hle]
    dsimp only
    rw [hfail m xo (yo.take xo.length) hm]
    exact ⟨_, rfl⟩

theorem c7_insufficient_data_witness :
    PolynomialRegression 3 [0, 1] [0, 1]
        = (0, some RegressionError.insufficientData)
  ∧ (PolynomialRegression 1 [0, 1] [0, 1]).2 = none
  ∧ (∃ s, SolveTransformation [0] [0] NoneT
        = some (s, some RegressionError.insufficientData))
  ∧ (∃ s, SolvePolynomial [0, 1] [0, 1] 3
        = some (s, some RegressionError.insufficientData)) :=
  ⟨c7_insufficient_data.1 3 [0, 1] [0, 1] (by norm_num),
   c7_insufficient_data.2.1 1 [0, 1] [0, 1] (by norm_num),
   c7_insufficient_data.2.2.1 [0] [0] NoneT (by norm_num) (by norm_num),
   c7_insufficient_data.2.2.2 [0, 1] [0, 1] 3 (by norm_num) (by norm_num)⟩

/-- C10: whenever len y ≥ len x both assemblers are total (the copy
loop ignores excess y entries, keeping the first len x of them), and
with len y < len x the read y[i] goes out of range, modelled as `none`:
the length invariant is a genuine precondition, not a checked error. -/
theorem c10_length_precondition :
    (∀ (xo yo : List ℝ) (lt : LinearTransformation), xo.length ≤ yo.length →
        ∃ r, SolveTransformation xo yo lt = some r
          ∧ r.1.Y = yo.take xo.length)
  ∧ (∀ (xo yo : List ℝ) (m : ℕ), xo.length ≤ yo.length →
        ∃ r, SolvePolynomial xo yo m = some r ∧ r.1.Y = yo.take xo.length)
  ∧ SolveTransformation [0] [] NoneT = none
  ∧ SolvePolynomial [0] [] 1 = none := by
  refine ⟨?_, ?_, ?_, ?_⟩
  · intro xo yo lt hle
    rw [SolveTransformation, copyY_eq_take xo yo hle]
    dsimp only
    rcases hpr : PolynomialRegression 1 (xo.map lt.FTransformX)
        ((yo.take xo.length).map lt.FTransformY) with ⟨s, e⟩
    cases e with
    | none => exact ⟨_, rfl, rfl⟩
    | some err => exact ⟨_, rfl, rfl⟩
  · intro xo yo m hle
    rw [SolvePolynomial, copyY_eq_take xo yo hle]
    dsimp only
    rcases hpr : PolynomialRegression m xo (yo.take xo.length) with ⟨s, e⟩
    cases e with
    | none => exact ⟨_, rfl, rfl⟩
    | some err => exact ⟨_, rfl, rfl⟩
  · rfl
  · rfl

theorem c10_length_precondition_witness :
    (∃ r, SolveTransformation [0, 1] [0, 1, 2] NoneT = some r
        ∧ r.1.Y = ([0, 1, 2] : List ℝ).take 2)
  ∧ (∃ r, SolvePolynomial [0, 1] [0, 1, 2] 1 = some r
        ∧ r.1.Y = ([0, 1, 2] : List ℝ).take 2) :=
  ⟨c10_length_precondition.1 [0, 1] [0, 1, 2] NoneT (by norm_num),
   c10_length_precondition.2.1 [0, 1] [0, 1, 2] 1 (by norm_num)⟩

theorem polyA_one_01_det : (polyA 1 [(0 : ℝ), 1]).det = 1 := by
  rw [Matrix.det_fin_two]
  show powSum [(0 : ℝ), 1] (0 + 0) * powSum [(0 : ℝ), 1] (1 + 1)
      - powSum [(0 : ℝ), 1] (0 + 1) * powSum [(0 : ℝ), 1] (1 + 0) = 1
  norm_num [powSum]

/-- C3: for n ≥ m+1 points and an invertible moment matrix, the built
system has matrix element (i,j) = Σₗ xₗ^(i+j) (symmetric), vector
element i = Σₗ yₗ·xₗ^i, and the returned coefficient vector solves
that (m+1)×(m+1) linear system. -/
theorem c3_normal_equations (m : ℕ) (x y : List ℝ)
    (hn : m + 1 ≤ x.length) (hdet : IsUnit (polyA m x).det) :
    (∀ i j, polyA m x i j
        = ∑ l in Finset.range x.length, x.getD l 0 ^ ((i : ℕ) + (j : ℕ)))
  ∧ (∀ i j, polyA m x i j = polyA m x j i)
  ∧ (∀ i, polyB m x y i 0
        = ∑ l in Finset.range x.length, y.getD l 0 * x.getD l 0 ^ (i : ℕ))
  ∧ (PolynomialRegression m x y).2 = none
  ∧ polyA m x * (PolynomialRegression m x y).1 = polyB m x y := by
  have hne : ¬ (x.length < m + 1) := by omega
  refine ⟨fun i j => ?_, fun i j => ?_, fun i => polyB_apply m x y i 0, ?_, ?_⟩
  · show powSum x ((i : ℕ) + (j : ℕ)) = _
    rw [powSum_eq_range]
  · show powSum x ((i : ℕ) + (j : ℕ)) = powSum x ((j : ℕ) + (i : ℕ))
    rw [Nat.add_comm]
  · rw [PolynomialRegression, if_neg hne]
  · have h1 : (PolynomialRegression m x y).1
        = matSolve (polyA m x) (polyB m x y) := by
      rw [PolynomialRegression, if_neg hne]
    rw [h1]
    exact mul_matSolve _ _ (isUnit_iff_ne_zero.mp hdet)

theorem c3_normal_equations_witness :
    (1 + 1 ≤ ([(0 : ℝ), 1] : List ℝ).length)
  ∧ IsUnit (polyA 1 [(0 : ℝ), 1]).det
  ∧ polyA 1 [(0 : ℝ), 1] * (PolynomialRegression 1 [0, 1] [0, 1]).1
      = polyB 1 [0, 1] [0, 1] := by
  have hdet : IsUnit (polyA 1 [(0 : ℝ), 1]).det := by
    rw [polyA_one_01_det]; exact isUnit_one
  exact ⟨by norm_num, hdet,
    (c3_normal_equations 1 [0, 1] [0, 1] (by norm_num) hdet).2.2.2.2⟩

/-- C4: `SolveTransformation` transforms the data pointwise through the
model, fits a degree-1 polynomial on the transformed data, reads At and
Bt from rows 0 and 1 of the solution, restores A and B through the
model, and computes R²t on the transformed data with x ↦ At + Bt·x and
R² on the original data with the model FX(A, B, ·). -/
theorem c4_pipeline (xo yo : List ℝ) (lt : LinearTransformation)
    (hlen : xo.length = yo.length) (h2 : 2 ≤ xo.length) :
    ∃ sol, SolveTransformation xo yo lt = some (sol, none)
      ∧ sol.Xt = xo.map lt.FTransformX
      ∧ sol.Yt = yo.map lt.FTransformY
      ∧ sol.At = (PolynomialRegression 1 (xo.map lt.FTransformX)
          (yo.map lt.FTransformY)).1 0 0
      ∧ sol.Bt = (PolynomialRegression 1 (xo.map lt.FTransformX)
          (yo.map lt.FTransformY)).1 1 0
      ∧ sol.A = lt.FRestoreA sol.At
      ∧ sol.B = lt.FRestoreB sol.Bt
      ∧ sol.R2t = r2Calc sol.Xt sol.Yt (fun t => sol.At + sol.Bt * t)
      ∧ sol.R2 = r2Calc xo yo (fun t => lt.FX sol.A sol.B t) := by
  have htake : yo.take xo.length = yo := by rw [hlen]; exact List.take_length yo
  rw [SolveTransformation, copyY_eq_take xo yo (le_of_eq hlen), htake]
  dsimp only
  have hne : ¬ ((xo.map lt.FTransformX).length < 1 + 1) := by
    rw [List.length_map]; omega
  rw [PolynomialRegression, if_neg hne]
  dsimp only
  exact ⟨_, rfl, rfl, rfl, rfl, rfl, rfl, rfl, rfl, rfl⟩

theorem c4_pipeline_witness :
    ∃ sol, SolveTransformation [0, 1] [0, 1] NoneT = some (sol, none) :=
  (c4_pipeline [0, 1] [0, 1] NoneT rfl (by norm_num)).elim
    fun s hs => ⟨s, hs.1⟩

/-- C6: on noiseless linear data y = c + d·x over at least two distinct
x values, the degree-1 fit returns exactly the column (c, d); in
particular `SolvePolynomial` at degree 1 on x = y = [0,1,2,3,4]
returns the coefficient vector (0, 1). -/
theorem c6_linear_fit_recovery :
    (∀ (x y : List ℝ) (c d : ℝ), x.length = y.length →
        (∃ p, p < x.length ∧ ∃ q, q < x.length ∧ x.getD p 0 ≠ x.getD q 0) →
        (∀ l, l < x.length → y.getD l 0 = c + d * x.getD l 0) →
        PolynomialRegression 1 x y = (!![c; d], none))
  ∧ (∃ s, SolvePolynomial [0, 1, 2, 3, 4] [0, 1, 2, 3, 4] 1
        = some (s, none) ∧ s.A = !![(0 : ℝ); 1]) := by
  have hgen : ∀ (x y : List ℝ) (c d : ℝ), x.length = y.length →
      (∃ p, p < x.length ∧ ∃ q, q < x.length ∧ x.getD p 0 ≠ x.getD q 0) →
      (∀ l, l < x.length → y.getD l 0 = c + d * x.getD l 0) →
      PolynomialRegression 1 x y = (!![c; d], none) := by
    rintro x y c d hlen ⟨p, hp, q, hq, hne⟩ hline
    have hdetpos := polyA_one_det_pos x p q hp hq hne
    have hpq : p ≠ q := fun h => hne (h ▸ rfl)
    have hn2 : ¬ (x.length < 1 + 1) := by omega
    rw [PolynomialRegression, if_neg hn2,
      matSolve_unique (polyA 1 x) (polyB 1 x y) !![c; d]
        (ne_of_gt hdetpos) (polyA_one_mul_line x y c d hline)]
  refine ⟨hgen, ?_⟩
  have hconc := hgen [0, 1, 2, 3, 4] [0, 1, 2, 3, 4] 0 1 rfl
    ⟨0, by norm_num, 1, by norm_num,
      by norm_num [List.getD_cons_zero, List.getD_cons_succ]⟩
    (fun l hl => by
      have hl5 : l < 5 := by simpa using hl
      interval_cases l <;>
        norm_num [List.getD_cons_zero, List.getD_cons_succ])
  rw [SolvePolynomial, copyY_eq_take _ _ (by norm_num), List.take_length]
  dsimp only
  rw [hconc]
  exact ⟨_, rfl, rfl⟩

theorem c6_linear_fit_recovery_witness :
    PolynomialRegression 1 [(0 : ℝ), 1] [1, 3] = (!![1; 2], none) :=
  c6_linear_fit_recovery.1 [0, 1] [1, 3] 1 2 rfl
    ⟨0, by norm_num, 1, by norm_num,
      by norm_num [List.getD_cons_zero, List.getD_cons_succ]⟩
    (fun l hl => by
      have hl2 : l < 2 := by simpa using hl
      interval_cases l <;>
        norm_num [List.getD_cons_zero, List.getD_cons_succ])

/-- C9: whenever the moment matrix is invertible, the matrix-inverse
formulation (ZᵀZ)⁻¹ Zᵀy over the Vandermonde design matrix produces
the same coefficient vector as the normal-equations path. -/
theorem c9_inverse_matrix_equivalence (m : ℕ) (x y : List ℝ)
    (hdet : IsUnit (polyA m x).det) :
    (polynomialRegressionInverseMatrix m x y).1
      = (PolynomialRegression m x y).1 := by
  have hn := length_ge_of_polyA_isUnit m x hdet
  have hne : ¬ (x.length < m + 1) := by omega
  have h1 : (PolynomialRegression m x y).1
      = matSolve (polyA m x) (polyB m x y) := by
    rw [PolynomialRegression, if_neg hne]
  rw [h1]
  show matInverse ((generateZmatrix x m).transpose * generateZmatrix x m)
      * ((generateZmatrix x m).transpose * yVec x y)
    = matSolve (polyA m x) (polyB m x y)
  rw [← polyA_eq_zTz, ← polyB_eq_zTy, matInverse, matSolve, Matrix.smul_mul]

theorem c9_inverse_matrix_equivalence_witness :
    IsUnit (polyA 1 [(0 : ℝ), 1]).det
  ∧ (polynomialRegressionInverseMatrix 1 [0, 1] [0, 1]).1
      = (PolynomialRegression 1 [0, 1] [0, 1]).1 := by
  have hdet : IsUnit (polyA 1 [(0 : ℝ), 1]).det := by
    rw [polyA_one_01_det]; exact isUnit_one
  exact ⟨hdet, c9_inverse_matrix_equivalence 1 [0, 1] [0, 1] hdet⟩

end

end CsvAnalysis
